import Mathlib

/-!
# Verification of the `ino` build command core

Shallow embedding, in Lean 4, of the configuration-merging, flag-assembly
and dependency-resolution logic of `ino/commands/build.py`, together with
theorems checking the natural-language specification against it.

The embedding models:

* `Build._mergeDicts`            as `mergeDicts` on an ordered tree `Dict`;
* `Build._parseMenu`             as `parseMenu`;
* `Build._appendNumberedEntries` as `appendNumberedEntries`;
* `Build.setup_flags`            as `setup_flags`;
* `Build._scan_dependencies`     as `scanDeps` (the regex matching of the
  external scanner abstracted as a `String → String → Bool` oracle);
* `Build.scan_dependencies`      as the transition relation `ScanStep`
  (the outer fixpoint loop, nondeterministic in the order Python iterates
  its sets).
-/

namespace Ino

/-! ## Dependency resolver: the in-place reorder loop

Python source (`Build.scan_dependencies`), the inner loop over a copy of
`used_libs` with a live index `i`:

    i = 0
    for ulib in used_libs[:]:
        if ulib in dep_libs:
            used_libs.append(used_libs.pop(i))
            dep_libs.remove(ulib)
        else:
            i += 1

`moveToTail cur live i dep` reproduces it: `cur` is the copy being
iterated, `live` the mutating list, `i` the index, `dep` the scanned
dependency set (a Python `set`, here a list standing for one of its
iteration orders).  `List.pop(i)` on an in-range index is modelled by
`get? i` / `eraseIdx i`; an out-of-range index (which cannot occur, and
would raise in Python) leaves the state unchanged. -/

def moveToTail {α : Type} [DecidableEq α] :
    List α → List α → Nat → List α → List α × List α
  | [], live, _, dep => (live, dep)
  | ulib :: rest, live, i, dep =>
    if ulib ∈ dep then
      match live.get? i with
      | some a => moveToTail rest (live.eraseIdx i ++ [a]) i (dep.erase ulib)
      | none => (live, dep)
    else
      moveToTail rest live (i + 1) dep

/-- After the reorder loop the source does `used_libs.extend(dep_libs)`:
the libraries remaining in `dep_libs` are appended to the tail. -/
def stepUsed {α : Type} [DecidableEq α] (used dep : List α) : List α :=
  let p := moveToTail used used 0 dep
  p.1 ++ p.2

/-- Embedding of `Build._scan_dependencies(dir, lib_dirs, inc_flags)`: the external
listing of the scanner, which is abstracted by the oracle `m`, where `m dir lib`
states that the regex for `lib` matches some line of the dependency
listing produced for `dir`.  The source collects, as a set, every
candidate of `lib_dirs` whose regex matches and which is not `dir`
itself (`if regex.search(line) and lib != dir`). -/
def scanDeps (m : String → String → Bool) (lib_dirs : List String)
    (dir : String) : List String :=
  (lib_dirs.filter (fun lib => m dir lib && decide (lib ≠ dir))).dedup

/-- State of the outer fixpoint loop of `Build.scan_dependencies`:
the ordered `used_libs` list and the `scanned_libs` set. -/
structure RState where
  used : List String
  scanned : Finset String
  deriving DecidableEq

/-- One iteration of the body of the outer loop of
`Build.scan_dependencies`: pick any library of `used_libs` not yet
scanned (Python iterates `set(used_libs) - scanned_libs` in an
arbitrary order), scan it (`dep` is the resulting set in an arbitrary
iteration order, hence any permutation of `scanDeps`), run the reorder
loop, extend with the new dependencies, and mark the library scanned. -/
inductive ScanStep (m : String → String → Bool) (lib_dirs : List String) :
    RState → RState → Prop
  | scan (s : RState) (lib : String) (dep : List String)
      (hmem : lib ∈ s.used) (hns : lib ∉ s.scanned)
      (hdep : dep.Perm (scanDeps m lib_dirs lib)) :
      ScanStep m lib_dirs s ⟨stepUsed s.used dep, insert lib s.scanned⟩

/-- Zero or more iterations of the outer loop. -/
def Reaches (m : String → String → Bool) (lib_dirs : List String) :
    RState → RState → Prop :=
  Relation.ReflTransGen (ScanStep m lib_dirs)

/-- Exactly `n` iterations of the outer loop. -/
inductive StepN (m : String → String → Bool) (lib_dirs : List String) :
    Nat → RState → RState → Prop
  | refl (s : RState) : StepN m lib_dirs 0 s s
  | tail {n s t u} : StepN m lib_dirs n s t → ScanStep m lib_dirs t u →
      StepN m lib_dirs (n + 1) s u

/-- The loop guard `while scanned_libs != set(used_libs)` fails (the
loop exits) exactly when every used library has been scanned; since
scanned libraries always come from `used_libs`, this is the inclusion
below. -/
def FinalState (s : RState) : Prop := s.used.toFinset ⊆ s.scanned

/-- Scanner oracle for the cyclic example: the source reports A, then
A includes B, B includes C and C includes A. -/
def mCyc : String → String → Bool := fun d l =>
  (d == "src" && l == "A") || (d == "A" && l == "B") ||
    (d == "B" && l == "C") || (d == "C" && l == "A")

/-- Concrete scanner oracle for the Wire/SPI witness. -/
def mWire : String → String → Bool := fun d l =>
  (d == "src" && (l == "Wire" || l == "SPI")) || (d == "Wire" && l == "SPI")

/-- Invariant for the Wire/SPI scenario: either SPI is already behind
Wire, or Wire has not been scanned yet. -/
def WireSpiInv (s : RState) : Prop :=
  s.used = ["Wire", "SPI"] ∨ (s.used = ["SPI", "Wire"] ∧ "Wire" ∉ s.scanned)

/-! ## Configuration trees

The nested board dictionaries of Python: string keys mapping to either
scalar values (strings; numeric scalars in `boards.txt` are modelled as
their decimal strings) or nested dictionaries.  `Dict` is an ordered
association structure mirroring dict iteration order; Python dicts have
unique keys, captured by the well-formedness predicate `wfD`. -/

mutual

inductive Value where
  | str : String → Value
  | tree : Dict → Value

inductive Dict where
  | nil : Dict
  | cons : String → Value → Dict → Dict

end

/-- Lookup `d[key]`, as an `Option` (first binding wins). -/
def dfind : Dict → String → Option Value
  | .nil, _ => none
  | .cons k v d, key => if k = key then some v else dfind d key

/-- Embedding of the Python test `key in d`. -/
def hasKey (d : Dict) (k : String) : Bool := (dfind d k).isSome

/-- Embedding of the Python assignment `d[key] = val`: overwrite in place if present, else append. -/
def dinsert : Dict → String → Value → Dict
  | .nil, k, v => .cons k v .nil
  | .cons k' v' d, k, v =>
    if k' = k then .cons k' v d else .cons k' v' (dinsert d k v)

/-- Embedding of the Python deletion `del d[key]` on a present key (first binding removed). -/
def removeKey : Dict → String → Dict
  | .nil, _ => .nil
  | .cons k' v d, k => if k' = k then d else .cons k' v (removeKey d k)

/-- Concatenation of two association structures. -/
def dappend : Dict → Dict → Dict
  | .nil, e => e
  | .cons k v d, e => .cons k v (dappend d e)

def dkeys : Dict → List String
  | .nil => []
  | .cons k _ d => k :: dkeys d

def dictLen : Dict → Nat
  | .nil => 0
  | .cons _ _ d => dictLen d + 1

mutual

/-- Embedding of `Build._mergeDicts(dest, src)`: for each `key, val` in `src`, store
`val` into `dest` unless both sides hold dictionaries at `key`, in
which case merge recursively. -/
def mergeDicts : Dict → Dict → Dict
  | dest, .nil => dest
  | dest, .cons k v src => mergeDicts (mergeOne dest k v) src

/-- The body of the `_mergeDicts` loop for a single `key, val` binding. -/
def mergeOne (dest : Dict) (k : String) (v : Value) : Dict :=
  match dfind dest k, v with
  | some (.tree t), .tree t' => dinsert dest k (.tree (mergeDicts t t'))
  | _, _ => dinsert dest k v

end

/-- The value stored by `mergeOne` at its key: the source value, except
when both sides hold trees, in which case the recursive merge. -/
def mergeOneVal : Option Value → Value → Value
  | some (.tree t), .tree t' => .tree (mergeDicts t t')
  | _, v => v

mutual

/-- Well-formedness: unique keys at every level (Python dicts). -/
def wfD : Dict → Bool
  | .nil => true
  | .cons k v d => !hasKey d k && wfV v && wfD d

def wfV : Value → Bool
  | .str _ => true
  | .tree d => wfD d

end

/-! ## Menu selection parsing and merging

Embedding of `Build._parseMenu(args, board)`. -/

/-- Splitting on a single character with Python `str.split` semantics:
`n` separators yield `n + 1` pieces, empty pieces included. -/
def splitOnCharAux (c : Char) : List Char → List Char → List String
  | [], cur => [String.mk cur.reverse]
  | ch :: rest, cur =>
    if ch = c then String.mk cur.reverse :: splitOnCharAux c rest []
    else splitOnCharAux c rest (ch :: cur)

def splitOnChar (c : Char) (s : String) : List String :=
  splitOnCharAux c s.data []

/-- Embedding of the Python dict assignment `choices[pair[0]] = pair[1]`
on the flat string-to-string choices dict. -/
def strInsert : List (String × String) → String → String → List (String × String)
  | [], k, v => [(k, v)]
  | (k', v') :: rest, k, v =>
    if k' = k then (k', v) :: rest else (k', v') :: strInsert rest k v

def lookupStr : List (String × String) → String → Option String
  | [], _ => none
  | (k', v') :: rest, k => if k' = k then some v' else lookupStr rest k

/-- Parsing of the raw `"key0:val0,key1:val1,..."` selection string:
each comma-piece is split on `:`; pieces with fewer than two fields are
silently dropped, and only the first two fields are used. -/
def parseChoices (menuArg : String) : List (String × String) :=
  (splitOnChar ',' menuArg).foldl
    (fun acc opt =>
      match splitOnChar ':' opt with
      | k :: v :: _ => strInsert acc k v
      | _ => acc) []

/-- Failure modes of `_parseMenu`: `invalidChoices` is the explicit
`raise KeyError(str(failed) + " invalid menu choices")` (carrying here
the invalid pairs the source printed while counting `failed`);
`nameMissing` is the `KeyError` that `del selectedOptions["name"]`
raises when no merged fragment contributed a top-level name key;
`badShape` stands for the Python type errors hit on a malformed menu
tree (a non-dict where a dict is required). -/
inductive MenuErr where
  | badShape : MenuErr
  | invalidChoices : List (String × String) → MenuErr
  | nameMissing : MenuErr

/-- The category loop of `_parseMenu`: for every declared category, if
the user selected a choice, check it (recording the invalid pair and
continuing on failure, deep-merging the fragment into the accumulator
on success); otherwise fall back to the first declared choice unless
the category is empty. -/
def collectLoop (choices : List (String × String)) :
    Dict → List (String × String) → Dict →
      Option (List (String × String) × Dict)
  | .nil, pairs, acc => some (pairs, acc)
  | .cons item options rest, pairs, acc =>
    match options with
    | .str _ => none
    | .tree opts =>
      match lookupStr choices item with
      | some choice =>
        match dfind opts choice with
        | none => collectLoop choices rest (pairs ++ [(item, choice)]) acc
        | some (.tree frag) => collectLoop choices rest pairs (mergeDicts acc frag)
        | some (.str _) => none
      | none =>
        match opts with
        | .nil => collectLoop choices rest pairs acc
        | .cons _ firstVal _ =>
          match firstVal with
          | .tree frag => collectLoop choices rest pairs (mergeDicts acc frag)
          | .str _ => none

/-- Reference check of a single declared category: the selected choice
paired with the category when it is invalid, nothing otherwise. -/
def invalidEntry (choices : List (String × String)) (item : String) :
    Value → List (String × String)
  | .str _ => []
  | .tree opts =>
    match lookupStr choices item with
    | none => []
    | some choice => if hasKey opts choice then [] else [(item, choice)]

/-- Reference enumeration of the invalid `(category, choice)` pairs of
a selection against a menu, in declaration order. -/
def invalidPairsOf (choices : List (String × String)) : Dict → List (String × String)
  | .nil => []
  | .cons item options rest =>
    invalidEntry choices item options ++ invalidPairsOf choices rest

/-- Embedding of `Build._parseMenu(args, board)`.  The result pairs the
outcome (`none` for normal return) with the board as left by the call:
the board is only mutated by the final `_mergeDicts(board,
selectedOptions)`, which runs after every possible raise, so on an
error the board is returned unchanged. -/
def parseMenu (menuArg : String) (board : Dict) : Option MenuErr × Dict :=
  match dfind board "menu" with
  | none => (none, board)
  | some (.str _) => (some .badShape, board)
  | some (.tree menu) =>
    match collectLoop (parseChoices menuArg) menu [] .nil with
    | none => (some .badShape, board)
    | some (pairs, acc) =>
      if 0 < pairs.length then (some (.invalidChoices pairs), board)
      else if hasKey acc "name" then
        (none, mergeDicts board (removeKey acc "name"))
      else (some .nameMissing, board)

/-! ## Numbered option families

Embedding of `Build._appendNumberedEntries(out, table, prefix, start,
wrap)`, the loop `while (prefix + str(i)) in table: out +=
wrap([table[prefix + str(i)]]); i += 1`. -/

/-- Fuel-indexed unfolding of the while loop: collect the values at
keys `pfx ++ str(i)`, `pfx ++ str(i+1)`, ... until the first missing
index. -/
def appendNumberedGo (table : Dict) (pfx : String) : Nat → Nat → List Value
  | 0, _ => []
  | fuel + 1, i =>
    match dfind table (pfx ++ Nat.repr i) with
    | some v => v :: appendNumberedGo table pfx fuel (i + 1)
    | none => []

/-- The entries the while loop of `_appendNumberedEntries` appends to
`out`.  The Python loop carries no fuel: it stops at the first missing
index, which always arrives within `dictLen table` steps because the
generated keys are pairwise distinct while the table is finite;
`appendNumberedEntries_unfold` below shows the fuel is immaterial by
establishing the unbounded recurrence of the source loop. -/
def appendNumberedEntries (table : Dict) (pfx : String) (start : Nat) : List Value :=
  appendNumberedGo table pfx (dictLen table + 1) start

/-! ## Flag assembly

Embedding of `Build.setup_flags(args)`. -/

/-- Modelled from the spec: `SpaceList` lives in `ino.utils`, which is
not among the given sources.  The spec describes a FlagSequence as an
ordered sequence of string tokens whose order is semantically
significant, so a `SpaceList` is an ordered list; its elements are
`Value`s because `_appendNumberedEntries` appends raw table values. -/
abbrev SpaceList := List Value

/-- The four user flag strings, already shell-tokenized (`shlex.split`
is Python library code; the spec calls the inputs "four raw user flag
strings (shell-tokenizable)"). -/
structure FlagArgs where
  cppflags : List String
  cflags : List String
  cxxflags : List String
  ldflags : List String

/-- The slice of the shared environment object `self.e` that
`setup_flags` writes: the include-flag token and the four flag
sequences (absent until assigned), plus whether the output naming
scheme was stored. -/
structure Env where
  incflag : Option Value
  cppflags : Option SpaceList
  cflags : Option SpaceList
  cxxflags : Option SpaceList
  ldflags : Option SpaceList
  namesSet : Bool

/-- Failure modes of `setup_flags`: `keyErr k` models the Python
`KeyError` on the missing key `k`; `shapeErr` models the Python
`TypeError` raised when a nested dict appears where a string is
required (for instance in a string concatenation). -/
inductive FlagErr where
  | keyErr : String → FlagErr
  | shapeErr : FlagErr

/-- Embedding of the Python `str.lower()` (ASCII lowering, which is
what board names use). -/
def pyLower (s : String) : String := String.mk (s.data.map Char.toLower)

def charsStart : List Char → List Char → Bool
  | [], _ => true
  | _ :: _, [] => false
  | c :: cs, d :: ds => (c == d) && charsStart cs ds

/-- Embedding of the Python `s.startswith(p)`. -/
def startsWithStr (s p : String) : Bool := charsStart p.data s.data

mutual

/-- Rendering used by the `%s` formatting of the vid/pid defines: a
string formats as itself, a nested dict as a Python dict display (the
formatting never fails in Python, so this function is total). -/
def pyStr : Value → String
  | .str s => s
  | .tree d => "\x7b" ++ pyReprEntries d ++ "\x7d"

def pyReprV : Value → String
  | .str s => "\x27" ++ s ++ "\x27"
  | .tree d => "\x7b" ++ pyReprEntries d ++ "\x7d"

def pyReprEntries : Dict → String
  | .nil => ""
  | .cons k v .nil => "\x27" ++ k ++ "\x27: " ++ pyReprV v
  | .cons k v rest =>
    "\x27" ++ k ++ "\x27: " ++ pyReprV v ++ ", " ++ pyReprEntries rest

end

/-- The include-flag token configured by the profile, defaulting to
`-I` (`board['build']['incflag'] if 'incflag' in board['build'] else
'-I'`). -/
def incflagVal (build : Dict) : Value :=
  match dfind build "incflag" with
  | some v => v
  | none => .str "-I"

/-- The `cpu, mcu` pair of `setup_flags`: `-mcpu=` when a `cpu` key is
configured, else `-mmcu=` when an `mcu` key is (the `elif` makes at
most one non-empty); `none` models the `TypeError` on a dict value. -/
def archFlags (build : Dict) : Option (String × String) :=
  match dfind build "cpu" with
  | some (.str c) => some ("-mcpu=" ++ c, "")
  | some (.tree _) => none
  | none =>
    match dfind build "mcu" with
    | some (.str mc) => some ("", "-mmcu=" ++ mc)
    | some (.tree _) => none
    | none => some ("", "")

/-- The conditional `-DUSB_VID` / `-DUSB_PID` defines. -/
def vidPidSuffix (build : Dict) : SpaceList :=
  (match dfind build "vid" with
   | some v => [Value.str ("-DUSB_VID=" ++ pyStr v)]
   | none => []) ++
  (match dfind build "pid" with
   | some v => [Value.str ("-DUSB_PID=" ++ pyStr v)]
   | none => [])

/-- The variant include step: only profiles named `arduino...` under a
non-zero platform major version resolve `build.variant` (a missing key
raises) and append the variant include path. -/
def variantSuffix (nm : String) (verMajor : Nat) (incf variantsDir : String)
    (build : Dict) : Option FlagErr × SpaceList :=
  if startsWithStr (pyLower nm) "arduino" then
    if verMajor ≠ 0 then
      match dfind build "variant" with
      | none => (some (.keyErr "variant"), [])
      | some (.tree _) => (some .shapeErr, [])
      | some (.str var) => (none, [Value.str (incf ++ (variantsDir ++ "/" ++ var))])
    else (none, [])
  else (none, [])

/-- Embedding of `Build.setup_flags(args)`.  Parameters stand for the
external environment: `verInt`/`verMajor` for
`arduino_lib_version.as_int()` and `.major`, `coreDir`/`variantsDir`
for the discovered directories, `findTool` for `find_arduino_tool` (an
external collaborator assumed to resolve the link script).  The result
pairs the outcome with the environment as left at return or raise
time, following the source mutation order: `incflag` first, then the
spark short-circuit, then `cpu`/`mcu`, the `f_cpu` check, `cppflags`
(base, user flags, `option` from 1, `define` from 0, vid/pid, variant
include), `cflags`, `cxxflags` (+ `cppoption` from 1), `ldflags`
(arch, `-Wl,` user flags, `linkoption`/`additionalobject` from 1, and
a final `-T` prepend when a link script is configured). -/
def setup_flags (verInt : Nat) (verMajor : Nat) (coreDir variantsDir : String)
    (findTool : String → String) (args : FlagArgs) (board : Dict) (e : Env) :
    Option FlagErr × Env :=
  match dfind board "build" with
  | none => (some (.keyErr "build"), e)
  | some (.str _) => (some .shapeErr, e)
  | some (.tree build) =>
    let e1 := { e with incflag := some (incflagVal build) }
    match dfind board "name" with
    | none => (some (.keyErr "name"), e1)
    | some (.tree _) => (some .shapeErr, e1)
    | some (.str nm) =>
      if startsWithStr (pyLower nm) "spark" then
        (none, { e1 with cppflags := some [], cflags := some [],
                         cxxflags := some [], ldflags := some [],
                         namesSet := true })
      else
        match archFlags build with
        | none => (some .shapeErr, e1)
        | some (cpu, mcu) =>
          match dfind build "f_cpu" with
          | none => (some (.keyErr "f_cpu"), e1)
          | some (.tree _) => (some .shapeErr, e1)
          | some (.str f_cpu) =>
            match incflagVal build with
            | .tree _ => (some .shapeErr, e1)
            | .str incf =>
              let vs := variantSuffix nm verMajor incf variantsDir build
              let cpp : SpaceList :=
                [.str cpu, .str mcu, .str ("-DF_CPU=" ++ f_cpu),
                 .str ("-DARDUINO=" ++ Nat.repr verInt),
                 .str (incf ++ coreDir)] ++
                args.cppflags.map Value.str ++
                appendNumberedEntries build "option" 1 ++
                appendNumberedEntries build "define" 0 ++
                vidPidSuffix build ++ vs.2
              match vs.1 with
              | some err => (some err, { e1 with cppflags := some cpp })
              | none =>
                let e2 := { e1 with cppflags := some cpp,
                                    cflags := some (args.cflags.map Value.str),
                                    cxxflags := some (args.cxxflags.map Value.str ++
                                      appendNumberedEntries build "cppoption" 1) }
                let ld : SpaceList :=
                  [.str cpu, .str mcu] ++
                  args.ldflags.map (fun fl => Value.str ("-Wl," ++ fl)) ++
                  appendNumberedEntries build "linkoption" 1 ++
                  appendNumberedEntries build "additionalobject" 1
                match dfind build "linkscript" with
                | some (.tree _) => (some .shapeErr, { e2 with ldflags := some ld })
                | some (.str ls) =>
                  (none, { e2 with
                    ldflags := some (Value.str ("-T" ++ findTool ls) :: ld),
                    namesSet := true })
                | none => (none, { e2 with ldflags := some ld, namesSet := true })

/-! ### Characterisation of the reorder loop -/

theorem get?_append_cons {α : Type} (pre : List α) (x : α) (l : List α) :
    (pre ++ x :: l).get? pre.length = some x := by
  induction pre with
  | nil => rfl
  | cons a pre ih => simpa using ih

theorem eraseIdx_append_cons {α : Type} (pre : List α) (x : α) (l : List α) :
    (pre ++ x :: l).eraseIdx pre.length = pre ++ l := by
  induction pre with
  | nil => rfl
  | cons a pre ih => simpa [List.eraseIdx] using ih

theorem moveToTail_eq {α : Type} [DecidableEq α] :
    ∀ (cur pre tail dep : List α), cur.Nodup → dep.Nodup →
      moveToTail cur (pre ++ cur ++ tail) pre.length dep =
        (pre ++ cur.filter (fun x => decide (x ∉ dep)) ++ tail ++
           cur.filter (fun x => decide (x ∈ dep)),
         dep.filter (fun x => decide (x ∉ cur)))
  | [], pre, tail, dep, _, _ => by
      simp [moveToTail]
  | ulib :: rest, pre, tail, dep, hcur, hdep => by
      have hrestnd : rest.Nodup := hcur.of_cons
      have hulib : ulib ∉ rest := (List.nodup_cons.mp hcur).1
      by_cases hmem : ulib ∈ dep
      · have hlive : pre ++ (ulib :: rest) ++ tail = pre ++ ulib :: (rest ++ tail) := by
          simp
        rw [hlive]
        rw [moveToTail, if_pos hmem, get?_append_cons, eraseIdx_append_cons]
        show moveToTail rest (pre ++ (rest ++ tail) ++ [ulib]) pre.length (dep.erase ulib) = _
        have hlive2 : (pre ++ (rest ++ tail)) ++ [ulib] = pre ++ rest ++ (tail ++ [ulib]) := by
          simp
        rw [hlive2]
        rw [moveToTail_eq rest pre (tail ++ [ulib]) (dep.erase ulib) hrestnd
          (hdep.erase ulib)]
        congr 1
        · have hf1 : rest.filter (fun x => decide (x ∉ dep.erase ulib)) =
              rest.filter (fun x => decide (x ∉ dep)) := by
            apply List.filter_congr
            intro x hx
            have hne : x ≠ ulib := fun h => hulib (h ▸ hx)
            simp [List.mem_erase_of_ne hne]
          have hf2 : rest.filter (fun x => decide (x ∈ dep.erase ulib)) =
              rest.filter (fun x => decide (x ∈ dep)) := by
            apply List.filter_congr
            intro x hx
            have hne : x ≠ ulib := fun h => hulib (h ▸ hx)
            simp [List.mem_erase_of_ne hne]
          rw [hf1, hf2]
          simp [hmem, List.filter_cons]
        · rw [hdep.erase_eq_filter ulib]
          rw [List.filter_filter]
          apply List.filter_congr
          intro x _
          by_cases hxu : x = ulib <;> simp [hxu]
      · rw [moveToTail, if_neg hmem]
        have hlive : pre ++ (ulib :: rest) ++ tail = (pre ++ [ulib]) ++ rest ++ tail := by
          simp
        have hlen : pre.length + 1 = (pre ++ [ulib]).length := by simp
        rw [hlive, hlen]
        rw [moveToTail_eq rest (pre ++ [ulib]) tail dep hrestnd hdep]
        congr 1
        · simp [hmem, List.filter_cons]
        · apply List.filter_congr
          intro x hx
          have hne : x ≠ ulib := fun h => hmem (h ▸ hx)
          simp [hne]

theorem moveToTail_spec {α : Type} [DecidableEq α] (used dep : List α)
    (hu : used.Nodup) (hd : dep.Nodup) :
    moveToTail used used 0 dep =
      (used.filter (fun x => decide (x ∉ dep)) ++
         used.filter (fun x => decide (x ∈ dep)),
       dep.filter (fun x => decide (x ∉ used))) := by
  have h := moveToTail_eq used [] [] dep hu hd
  simpa using h

theorem stepUsed_eq {α : Type} [DecidableEq α] (used dep : List α)
    (hu : used.Nodup) (hd : dep.Nodup) :
    stepUsed used dep =
      used.filter (fun x => decide (x ∉ dep)) ++
        used.filter (fun x => decide (x ∈ dep)) ++
        dep.filter (fun x => decide (x ∉ used)) := by
  unfold stepUsed
  rw [moveToTail_spec used dep hu hd]

theorem eraseIdx_append_singleton_perm {α : Type} :
    ∀ (live : List α) (i : Nat) (a : α), live.get? i = some a →
      (live.eraseIdx i ++ [a]).Perm live
  | [], i, a, h => by simp at h
  | x :: l, 0, a, h => by
    have hax : a = x := by simpa using h.symm
    subst hax
    exact List.perm_append_singleton a l
  | x :: l, i + 1, a, h => by
    have h' : l.get? i = some a := by simpa using h
    have ih := eraseIdx_append_singleton_perm l i a h'
    simpa [List.eraseIdx] using ih.cons x

/-- At every intermediate point of the reorder loop the live list is a
permutation of what it started as: a `pop`/`append` pair never
duplicates or drops an element. -/
theorem moveToTail_fst_perm {α : Type} [DecidableEq α] :
    ∀ (cur live : List α) (i : Nat) (dep : List α),
      ((moveToTail cur live i dep).1).Perm live
  | [], live, i, dep => by simp [moveToTail]
  | ulib :: rest, live, i, dep => by
    rw [moveToTail]
    by_cases hmem : ulib ∈ dep
    · rw [if_pos hmem]
      cases hget : live.get? i with
      | none => exact List.Perm.refl _
      | some a =>
        have h1 : ((moveToTail rest (live.eraseIdx i ++ [a]) i (dep.erase ulib)).1).Perm
            (live.eraseIdx i ++ [a]) := moveToTail_fst_perm _ _ _ _
        exact h1.trans (eraseIdx_append_singleton_perm live i a hget)
    · rw [if_neg hmem]
      exact moveToTail_fst_perm rest live (i + 1) dep

/-- Membership in the list produced by one loop body iteration:
exactly the old libraries plus the scanned dependencies. -/
theorem mem_stepUsed {α : Type} [DecidableEq α] (used dep : List α)
    (hu : used.Nodup) (hd : dep.Nodup) (x : α) :
    x ∈ stepUsed used dep ↔ x ∈ used ∨ x ∈ dep := by
  rw [stepUsed_eq used dep hu hd]
  simp only [List.mem_append, List.mem_filter, decide_eq_true_eq]
  constructor
  · rintro ((⟨h, _⟩ | ⟨h, _⟩) | ⟨h, _⟩)
    · exact Or.inl h
    · exact Or.inl h
    · exact Or.inr h
  · rintro (h | h)
    · by_cases hx : x ∈ dep
      · exact Or.inl (Or.inr ⟨h, hx⟩)
      · exact Or.inl (Or.inl ⟨h, hx⟩)
    · by_cases hx : x ∈ used
      · exact Or.inl (Or.inr ⟨hx, h⟩)
      · exact Or.inr ⟨h, hx⟩

/-- One loop body iteration preserves freedom from duplicates. -/
theorem stepUsed_nodup {α : Type} [DecidableEq α] (used dep : List α)
    (hu : used.Nodup) (hd : dep.Nodup) : (stepUsed used dep).Nodup := by
  rw [stepUsed_eq used dep hu hd]
  refine List.Nodup.append (List.Nodup.append (hu.filter _) (hu.filter _) ?_)
    (hd.filter _) ?_
  · intro x hx₁ hx₂
    rw [List.mem_filter, decide_eq_true_eq] at hx₁ hx₂
    exact hx₁.2 hx₂.2
  · intro x hx₁ hx₂
    rw [List.mem_append, List.mem_filter, List.mem_filter] at hx₁
    rw [List.mem_filter, decide_eq_true_eq] at hx₂
    rcases hx₁ with ⟨h, _⟩ | ⟨h, _⟩ <;> exact hx₂.2 h

/-- The scanner wrapper `_scan_dependencies` returns a set: no duplicates. -/
theorem scanDeps_nodup (m : String → String → Bool) (lib_dirs : List String)
    (dir : String) : (scanDeps m lib_dirs dir).Nodup :=
  List.nodup_dedup _

/-- Self-match exclusion: `if regex.search(line) and lib != dir` means a
directory never reports itself as its own dependency. -/
theorem self_not_mem_scanDeps (m : String → String → Bool)
    (lib_dirs : List String) (dir : String) : dir ∉ scanDeps m lib_dirs dir := by
  intro h
  rw [scanDeps, List.mem_dedup, List.mem_filter] at h
  simp at h

/-- Scanned dependencies are always candidate library directories. -/
theorem scanDeps_subset (m : String → String → Bool) (lib_dirs : List String)
    (dir : String) : scanDeps m lib_dirs dir ⊆ lib_dirs := by
  intro x hx
  rw [scanDeps, List.mem_dedup, List.mem_filter] at hx
  exact hx.1

theorem moveToTail_snd_subset {α : Type} [DecidableEq α] :
    ∀ (cur live : List α) (i : Nat) (dep : List α),
      (moveToTail cur live i dep).2 ⊆ dep
  | [], live, i, dep => by simp [moveToTail]
  | ulib :: rest, live, i, dep => by
    rw [moveToTail]
    by_cases hmem : ulib ∈ dep
    · rw [if_pos hmem]
      cases live.get? i with
      | none => exact fun x hx => hx
      | some a =>
        exact fun x hx =>
          List.mem_of_mem_erase (moveToTail_snd_subset rest _ i (dep.erase ulib) hx)
    · rw [if_neg hmem]
      exact moveToTail_snd_subset rest live (i + 1) dep

/-- Without any duplicate-freedom assumption, one loop body iteration
only produces libraries that were already used or just reported. -/
theorem stepUsed_subset {α : Type} [DecidableEq α] (used dep : List α) :
    ∀ x ∈ stepUsed used dep, x ∈ used ∨ x ∈ dep := by
  intro x hx
  unfold stepUsed at hx
  rcases List.mem_append.mp hx with h | h
  · exact Or.inl ((moveToTail_fst_perm used used 0 dep).subset h)
  · exact Or.inr (moveToTail_snd_subset used used 0 dep h)

theorem scanStep_used_nodup {m : String → String → Bool}
    {lib_dirs : List String} {s t : RState} (h : ScanStep m lib_dirs s t)
    (hn : s.used.Nodup) : t.used.Nodup := by
  cases h with
  | scan lib dep hmem hns hdep =>
    exact stepUsed_nodup _ _ hn (hdep.nodup_iff.mpr (scanDeps_nodup m lib_dirs lib))

/-- Claim C3, part of the reachability invariant: duplicate freedom of
`used_libs` is preserved by every outer-loop iteration. -/
theorem reaches_used_nodup {m : String → String → Bool}
    {lib_dirs : List String} {s0 s : RState}
    (hr : Reaches m lib_dirs s0 s) (hn : s0.used.Nodup) : s.used.Nodup := by
  induction hr with
  | refl => exact hn
  | tail _ hstep ih => exact scanStep_used_nodup hstep ih

theorem scanStep_mem_lib_dirs {m : String → String → Bool}
    {lib_dirs : List String} {s t : RState} (h : ScanStep m lib_dirs s t)
    (hu : ∀ x ∈ s.used, x ∈ lib_dirs) : ∀ x ∈ t.used, x ∈ lib_dirs := by
  cases h with
  | scan lib dep hmem hns hdep =>
    intro x hx
    rcases stepUsed_subset s.used dep x hx with h | h
    · exact hu x h
    · exact scanDeps_subset m lib_dirs lib (hdep.subset h)

/-- Invariants established along an `n`-iteration run: the scanned set
grows by exactly one per iteration and stays inside the candidate set. -/
theorem stepN_invariant {m : String → String → Bool} {lib_dirs : List String} :
    ∀ {n : Nat} {s0 s : RState}, StepN m lib_dirs n s0 s →
      (∀ x ∈ s0.used, x ∈ lib_dirs) → s0.scanned = ∅ →
      s.scanned.card = n ∧ (∀ x ∈ s.used, x ∈ lib_dirs) ∧
        s.scanned ⊆ lib_dirs.toFinset := by
  intro n s0 s h
  induction h with
  | refl s =>
    intro hu hsc
    exact ⟨by simp [hsc], hu, by simp [hsc]⟩
  | tail hsteps hstep ih =>
    intro hu hsc
    obtain ⟨hcard, hused, hscan⟩ := ih hu hsc
    cases hstep with
    | scan lib dep hmem hns hdep =>
      refine ⟨?_, ?_, ?_⟩
      · simp [Finset.card_insert_of_not_mem hns, hcard]
      · intro x hx
        rcases stepUsed_subset _ dep x hx with h | h
        · exact hused x h
        · exact scanDeps_subset m lib_dirs lib (hdep.subset h)
      · intro x hx
        rcases Finset.mem_insert.mp hx with rfl | hx
        · exact List.mem_toFinset.mpr (hused x hmem)
        · exact hscan hx

/--
Claim C2.  For every finite candidate library set and every
dependency-scanner oracle (cyclic include graphs included), the fixpoint
loop of `Build.scan_dependencies` terminates: after `n` iterations the
scanned set has exactly `n` elements (each iteration scans exactly one
previously-unscanned library, so no library is ever scanned twice, even
when reordering moves it inside `used_libs`), `n` never exceeds the
number of candidate directories (so the loop cannot run forever), and
as long as the exit condition fails another iteration is possible.
-/
theorem scan_loop_terminates (m : String → String → Bool)
    (lib_dirs : List String) (src : String) (s0 s : RState) (n : Nat)
    (h0 : s0.used.Perm (scanDeps m lib_dirs src)) (hsc : s0.scanned = ∅)
    (hn : StepN m lib_dirs n s0 s) :
    (s.scanned.card = n ∧ n ≤ lib_dirs.length) ∧
      (¬ FinalState s → ∃ s', ScanStep m lib_dirs s s') := by
  have hu0 : ∀ x ∈ s0.used, x ∈ lib_dirs := fun x hx =>
    scanDeps_subset m lib_dirs src (h0.subset hx)
  obtain ⟨hcard, hused, hscan⟩ := stepN_invariant hn hu0 hsc
  refine ⟨⟨hcard, ?_⟩, ?_⟩
  · calc n = s.scanned.card := hcard.symm
      _ ≤ lib_dirs.toFinset.card := Finset.card_le_card hscan
      _ ≤ lib_dirs.length := lib_dirs.toFinset_card_le
  · intro hnf
    obtain ⟨lib, hmem, hns⟩ := Finset.not_subset.mp hnf
    exact ⟨_, ScanStep.scan s lib (scanDeps m lib_dirs lib)
      (List.mem_toFinset.mp hmem) hns (List.Perm.refl _)⟩

/-- Witness for C2 at the cyclic A→B→C→A example, after one iteration
(scanning A, which discovers B). -/
theorem scan_loop_terminates_witness :
    (((insert "A" (∅ : Finset String)).card = 1 ∧
        1 ≤ (["A", "B", "C"] : List String).length) ∧
      (¬ FinalState ⟨["A", "B"], insert "A" ∅⟩ →
        ∃ s', ScanStep mCyc ["A", "B", "C"] ⟨["A", "B"], insert "A" ∅⟩ s')) :=
  scan_loop_terminates mCyc ["A", "B", "C"] "src" ⟨["A"], ∅⟩
    ⟨["A", "B"], insert "A" ∅⟩ 1 (List.Perm.refl _) rfl
    (StepN.tail (StepN.refl _)
      (ScanStep.scan ⟨["A"], ∅⟩ "A" ["B"] (by simp) (by simp) (List.Perm.refl _)))

/--
Claim C3.  At every point of dependency resolution — at every state
the outer loop can reach, and even at every intermediate state of the
inner reorder loop, which only permutes the live list — `used_libs` has
no duplicate entries; and a scan of a directory never reports that
directory itself as a dependency, so a library never moves or
re-appends itself.
-/
theorem usedLibs_duplicate_free (m : String → String → Bool)
    (lib_dirs : List String) (src : String) (s0 s : RState)
    (h0 : s0.used.Perm (scanDeps m lib_dirs src))
    (hr : Reaches m lib_dirs s0 s) :
    s.used.Nodup ∧ (∀ d, d ∉ scanDeps m lib_dirs d) ∧
      (∀ (cur live : List String) (i : Nat) (dep : List String),
        ((moveToTail cur live i dep).1).Perm live) :=
  ⟨reaches_used_nodup hr (h0.nodup_iff.mpr (scanDeps_nodup m lib_dirs src)),
   fun d => self_not_mem_scanDeps m lib_dirs d,
   fun cur live i dep => moveToTail_fst_perm cur live i dep⟩

/-- Witness for C3 at the initial state of the cyclic example. -/
theorem usedLibs_duplicate_free_witness :
    (["A"] : List String).Nodup ∧
      (∀ d, d ∉ scanDeps mCyc ["A", "B", "C"] d) ∧
      (∀ (cur live : List String) (i : Nat) (dep : List String),
        ((moveToTail cur live i dep).1).Perm live) :=
  usedLibs_duplicate_free mCyc ["A", "B", "C"] "src" ⟨["A"], ∅⟩ ⟨["A"], ∅⟩
    (List.Perm.refl _) Relation.ReflTransGen.refl

theorem perm_pair {α : Type} {a b : α} (hab : a ≠ b) :
    ∀ {l : List α}, l.Perm [a, b] → l = [a, b] ∨ l = [b, a] := by
  intro l h
  match l, h.length_eq with
  | [x, y], _ =>
    have hax : a ∈ [x, y] := h.symm.subset (by simp)
    have hbx : b ∈ [x, y] := h.symm.subset (by simp)
    rcases List.mem_pair.mp hax with rfl | rfl
    · rcases List.mem_pair.mp hbx with rfl | rfl
      · exact absurd rfl hab
      · exact Or.inl rfl
    · rcases List.mem_pair.mp hbx with rfl | rfl
      · exact Or.inr rfl
      · exact absurd rfl hab

section WireSpi

variable {m : String → String → Bool}

theorem wireSpi_scanDeps_src (h1 : m "src" "Wire" = true)
    (h2 : m "src" "SPI" = true) :
    scanDeps m ["Wire", "SPI"] "src" = ["Wire", "SPI"] := by
  rw [scanDeps, List.filter_cons, List.filter_cons, List.filter_nil, h1, h2]
  decide

theorem wireSpi_scanDeps_wire (h3 : m "Wire" "SPI" = true) :
    scanDeps m ["Wire", "SPI"] "Wire" = ["SPI"] := by
  rw [scanDeps, List.filter_cons, List.filter_cons, List.filter_nil, h3,
    show decide (("Wire" : String) ≠ "Wire") = false from rfl]
  simp only [Bool.and_false]
  decide

theorem wireSpi_scanDeps_spi (h4 : m "SPI" "Wire" = false) :
    scanDeps m ["Wire", "SPI"] "SPI" = [] := by
  rw [scanDeps, List.filter_cons, List.filter_cons, List.filter_nil, h4,
    show decide (("SPI" : String) ≠ "SPI") = false from rfl]
  simp only [Bool.and_false, Bool.false_and]
  decide

theorem wireSpi_inv_step (h3 : m "Wire" "SPI" = true)
    (h4 : m "SPI" "Wire" = false) {t u : RState}
    (hstep : ScanStep m ["Wire", "SPI"] t u) (hinv : WireSpiInv t) :
    WireSpiInv u := by
  cases hstep with
  | scan lib dep hmem hns hdep =>
    have hlib : lib = "Wire" ∨ lib = "SPI" := by
      rcases hinv with hu | ⟨hu, _⟩ <;> rw [hu] at hmem <;>
        simpa [or_comm] using hmem
    rcases hlib with rfl | rfl
    · rw [wireSpi_scanDeps_wire h3] at hdep
      have hdepe : dep = ["SPI"] := List.perm_singleton.mp hdep
      subst hdepe
      rcases hinv with hu | ⟨hu, _⟩ <;> rw [hu] <;>
        exact Or.inl rfl
    · rw [wireSpi_scanDeps_spi h4] at hdep
      have hdepe : dep = [] := List.perm_nil.mp hdep
      subst hdepe
      rcases hinv with hu | ⟨hu, hw⟩
      · rw [hu]
        exact Or.inl rfl
      · rw [hu]
        refine Or.inr ⟨rfl, ?_⟩
        intro hmem'
        rcases Finset.mem_insert.mp hmem' with heq | hmem'
        · exact absurd heq (by decide)
        · exact hw hmem'

/--
Claim C1.  Whenever the scanner reports `Wire` and `SPI` for the
source root, `SPI` for `Wire`, and nothing for `SPI`, every execution of
the fixpoint loop of `Build.scan_dependencies` — whatever order the
pending libraries are picked in, and whatever order the set from the initial scan
iterates in — ends with `used_libs = ["Wire", "SPI"]`: `SPI` is
placed after `Wire`.
-/
theorem spi_after_wire (m : String → String → Bool) (s0 s : RState)
    (h1 : m "src" "Wire" = true) (h2 : m "src" "SPI" = true)
    (h3 : m "Wire" "SPI" = true) (h4 : m "SPI" "Wire" = false)
    (h0 : s0.used.Perm (scanDeps m ["Wire", "SPI"] "src"))
    (hsc : s0.scanned = ∅)
    (hr : Reaches m ["Wire", "SPI"] s0 s) (hf : FinalState s) :
    s.used = ["Wire", "SPI"] := by
  have hinv0 : WireSpiInv s0 := by
    rw [wireSpi_scanDeps_src h1 h2] at h0
    rcases perm_pair (by decide) h0 with hu | hu
    · exact Or.inl hu
    · exact Or.inr ⟨hu, by simp [hsc]⟩
  have hinv : WireSpiInv s := by
    clear hf
    induction hr with
    | refl => exact hinv0
    | tail _ hstep ih => exact wireSpi_inv_step h3 h4 hstep ih
  rcases hinv with hu | ⟨hu, hw⟩
  · exact hu
  · exfalso
    apply hw
    apply hf
    rw [hu]
    simp

end WireSpi

/-! ### Deep-merge lemmas -/

theorem hasKey_cons (k : String) (v : Value) (d : Dict) (k' : String) :
    hasKey (.cons k v d) k' = ((k = k' : Bool) || hasKey d k') := by
  by_cases h : k = k' <;> simp [hasKey, dfind, h]

theorem wfD_cons {k : String} {v : Value} {d : Dict}
    (h : wfD (.cons k v d) = true) :
    hasKey d k = false ∧ wfV v = true ∧ wfD d = true := by
  rw [wfD, Bool.and_eq_true, Bool.and_eq_true, Bool.not_eq_true'] at h
  exact ⟨h.1.1, h.1.2, h.2⟩

theorem dfind_dinsert_self :
    ∀ (d : Dict) (k : String) (v : Value), dfind (dinsert d k v) k = some v
  | .nil, k, v => by simp [dinsert, dfind]
  | .cons k' v' d, k, v => by
    by_cases h : k' = k <;>
      simp [dinsert, dfind, h, dfind_dinsert_self d k v]

theorem dfind_dinsert_ne :
    ∀ (d : Dict) (k : String) (v : Value) (k' : String), k ≠ k' →
      dfind (dinsert d k v) k' = dfind d k'
  | .nil, k, v, k', h => by simp [dinsert, dfind, h]
  | .cons k'' v'' d, k, v, k', h => by
    by_cases h2 : k'' = k
    · subst h2
      simp [dinsert, dfind, h]
    · by_cases h3 : k'' = k' <;>
        simp [dinsert, dfind, h2, h3, Ne.symm h, dfind_dinsert_ne d k v k' h]

theorem dinsert_of_dfind_eq :
    ∀ {d : Dict} {k : String} {v : Value}, dfind d k = some v →
      dinsert d k v = d
  | .nil, k, v, h => by simp [dfind] at h
  | .cons k' v' d, k, v, h => by
    by_cases h2 : k' = k
    · subst h2
      rw [dfind, if_pos rfl] at h
      rw [dinsert, if_pos rfl, Option.some_inj.mp h]
    · rw [dfind, if_neg h2] at h
      rw [dinsert, if_neg h2, dinsert_of_dfind_eq h]

theorem mergeOneVal_str (o : Option Value) (s : String) :
    mergeOneVal o (.str s) = .str s := by
  match o with
  | none => rfl
  | some (.str _) => rfl
  | some (.tree _) => rfl

theorem mergeOne_eq (d : Dict) (k : String) (v : Value) :
    mergeOne d k v = dinsert d k (mergeOneVal (dfind d k) v) := by
  unfold mergeOne
  split
  · rename_i t t' heq
    rw [heq]
    rfl
  · rename_i v' o v2 hne
    cases hdk : dfind d k with
    | none => cases v' <;> rfl
    | some w =>
      cases w with
      | str s => cases v' <;> rfl
      | tree t =>
        cases v' with
        | str s => rfl
        | tree t' => exact (hne t t' hdk rfl).elim

theorem dfind_mergeOne_self (d : Dict) (k : String) (v : Value) :
    dfind (mergeOne d k v) k = some (mergeOneVal (dfind d k) v) := by
  rw [mergeOne_eq, dfind_dinsert_self]

theorem dfind_mergeOne_ne (d : Dict) (k : String) (v : Value) (k' : String)
    (h : k ≠ k') : dfind (mergeOne d k v) k' = dfind d k' := by
  rw [mergeOne_eq, dfind_dinsert_ne _ _ _ _ h]

/-- Merging only touches keys of the source: a key absent from `src`
keeps its binding. -/
theorem dfind_mergeDicts_of_not_hasKey :
    ∀ (src : Dict) (k : String), hasKey src k = false →
      ∀ d : Dict, dfind (mergeDicts d src) k = dfind d k
  | .nil, k, _, d => rfl
  | .cons k' v rest, k, h, d => by
    rw [hasKey_cons, Bool.or_eq_false_iff] at h
    have hk' : k' ≠ k := by
      intro he
      rw [he] at h
      simp at h
    rw [mergeDicts]
    rw [dfind_mergeDicts_of_not_hasKey rest k h.2 (mergeOne d k' v)]
    exact dfind_mergeOne_ne d k' v k hk'

theorem dfind_dappend :
    ∀ (d e : Dict) (k : String),
      dfind (dappend d e) k =
        match dfind d k with
        | some v => some v
        | none => dfind e k
  | .nil, e, k => by simp [dappend, dfind]
  | .cons k' v d, e, k => by
    by_cases h : k' = k <;> simp [dappend, dfind, h, dfind_dappend d e k]

theorem dappend_nil : ∀ d : Dict, dappend d .nil = d
  | .nil => rfl
  | .cons k v d => by rw [dappend, dappend_nil d]

theorem dappend_assoc :
    ∀ (a b c : Dict), dappend (dappend a b) c = dappend a (dappend b c)
  | .nil, b, c => rfl
  | .cons k v a, b, c => by rw [dappend, dappend, dappend, dappend_assoc a b c]

theorem dinsert_of_dfind_none :
    ∀ {d : Dict} {k : String} (v : Value), dfind d k = none →
      dinsert d k v = dappend d (.cons k v .nil)
  | .nil, k, v, _ => rfl
  | .cons k' v' d, k, v, h => by
    by_cases h2 : k' = k
    · rw [dfind, if_pos h2] at h
      exact absurd h (by simp)
    · rw [dfind, if_neg h2] at h
      rw [dinsert, if_neg h2, dappend, dinsert_of_dfind_none v h]

/-- Merging a source whose keys are all fresh in the destination is
plain concatenation. -/
theorem mergeDicts_of_disjoint :
    ∀ (src : Dict), wfD src = true →
      ∀ d : Dict, (∀ k, hasKey src k = true → dfind d k = none) →
        mergeDicts d src = dappend d src
  | .nil, _, d, _ => (dappend_nil d).symm
  | .cons k v rest, hwf, d, h => by
    obtain ⟨hk, _, hrest⟩ := wfD_cons hwf
    have hdk : dfind d k = none := h k (by simp [hasKey_cons])
    have hone : mergeOne d k v = dappend d (.cons k v .nil) := by
      rw [mergeOne_eq, hdk]
      have hval : mergeOneVal none v = v := by cases v <;> rfl
      rw [hval]
      exact dinsert_of_dfind_none v hdk
    rw [mergeDicts, hone]
    rw [mergeDicts_of_disjoint rest hrest (dappend d (.cons k v .nil)) ?_]
    · rw [dappend_assoc]
      rfl
    · intro k' hk'
      have hne : k ≠ k' := by
        intro he
        rw [he] at hk
        rw [hk'] at hk
        exact Bool.noConfusion hk
      rw [dfind_dappend]
      have : dfind d k' = none := h k' (by simp [hasKey_cons, hk'])
      rw [this]
      simp [dfind, hne]

/-- Merging into an empty destination copies the (well-formed) source. -/
theorem mergeDicts_nil_dest (t : Dict) (h : wfD t = true) :
    mergeDicts .nil t = t := by
  rw [mergeDicts_of_disjoint t h .nil (fun _ _ => rfl)]
  rfl

/--
Claim C9.  Deep-merging the same (well-formed) overlay a second
time into an already-merged profile is a no-op — in particular every
key overridden by the first resolution keeps its value.  This is the
idempotence of `_mergeDicts` used when a profile is re-resolved with
the same menu selection.
-/
theorem mergeDicts_idem (d src : Dict) (hwf : wfD src = true) :
    mergeDicts (mergeDicts d src) src = mergeDicts d src := by
  suffices h : ∀ (n : Nat) (s : Dict), sizeOf s ≤ n → wfD s = true →
      ∀ e : Dict, mergeDicts (mergeDicts e s) s = mergeDicts e s from
    h (sizeOf src) src le_rfl hwf d
  intro n
  induction n with
  | zero =>
    intro s hs hw e
    cases s with
    | nil => rfl
    | cons k v rest => simp at hs
  | succ n ih =>
    intro s hs hw e
    cases s with
    | nil => rfl
    | cons k v rest =>
      obtain ⟨hk, hv, hrest⟩ := wfD_cons hw
      simp only [Dict.cons.sizeOf_spec] at hs
      have hrest_le : sizeOf rest ≤ n := by omega
      rw [mergeDicts, mergeDicts]
      have hX : mergeOne (mergeDicts (mergeOne e k v) rest) k v =
          mergeDicts (mergeOne e k v) rest := by
        set X := mergeDicts (mergeOne e k v) rest with hXdef
        have hfind : dfind X k = some (mergeOneVal (dfind e k) v) := by
          rw [hXdef, dfind_mergeDicts_of_not_hasKey rest k hk,
            dfind_mergeOne_self]
        have hidem : mergeOneVal (some (mergeOneVal (dfind e k) v)) v =
            mergeOneVal (dfind e k) v := by
          cases v with
          | str s' => rw [mergeOneVal_str, mergeOneVal_str]
          | tree t' =>
            have ht'_le : sizeOf t' ≤ n := by
              simp only [Value.tree.sizeOf_spec] at hs
              omega
            have hwt' : wfD t' = true := hv
            have hself : mergeDicts t' t' = t' := by
              have h0 : mergeDicts (mergeDicts .nil t') t' = mergeDicts .nil t' :=
                ih t' ht'_le hwt' .nil
              rwa [mergeDicts_nil_dest t' hwt'] at h0
            cases hdk : dfind e k with
            | none =>
              show Value.tree (mergeDicts t' t') = Value.tree t'
              rw [hself]
            | some w =>
              cases w with
              | str s'' =>
                show Value.tree (mergeDicts t' t') = Value.tree t'
                rw [hself]
              | tree t =>
                show Value.tree (mergeDicts (mergeDicts t t') t') =
                  Value.tree (mergeDicts t t')
                rw [ih t' ht'_le hwt' t]
        rw [mergeOne_eq, hfind, hidem]
        exact dinsert_of_dfind_eq hfind
      rw [hX]
      exact ih rest hrest_le hrest (mergeOne e k v)

/-- Witness for C9 on a small concrete profile and overlay. -/
theorem mergeDicts_idem_witness :
    wfD (.cons "cpu" (.str "atmega328p") .nil) = true ∧
      mergeDicts
          (mergeDicts
            (.cons "cpu" (.str "atmega168") (.cons "f_cpu" (.str "16000000L") .nil))
            (.cons "cpu" (.str "atmega328p") .nil))
          (.cons "cpu" (.str "atmega328p") .nil) =
        mergeDicts
          (.cons "cpu" (.str "atmega168") (.cons "f_cpu" (.str "16000000L") .nil))
          (.cons "cpu" (.str "atmega328p") .nil) :=
  ⟨rfl, mergeDicts_idem
    (.cons "cpu" (.str "atmega168") (.cons "f_cpu" (.str "16000000L") .nil))
    (.cons "cpu" (.str "atmega328p") .nil) rfl⟩

/-! ### Menu resolution theorems -/

/-- The check loop of `_parseMenu` records exactly the invalid
`(category, choice)` pairs of the whole declared menu, in order, while
merging only valid fragments into the accumulator. -/
theorem collectLoop_pairs (choices : List (String × String)) :
    ∀ (menu : Dict) (pairs0 pairs : List (String × String)) (acc acc' : Dict),
      collectLoop choices menu pairs0 acc = some (pairs, acc') →
      pairs = pairs0 ++ invalidPairsOf choices menu
  | .nil, pairs0, pairs, acc, acc', h => by
    simp only [collectLoop, Option.some.injEq, Prod.mk.injEq] at h
    rw [← h.1]
    simp [invalidPairsOf]
  | .cons item options rest, pairs0, pairs, acc, acc', h => by
    cases options with
    | str s => simp [collectLoop] at h
    | tree opts =>
      simp only [collectLoop] at h
      cases hsel : lookupStr choices item with
      | some choice =>
        simp only [hsel] at h
        cases hfd : dfind opts choice with
        | none =>
          simp only [hfd] at h
          have ih := collectLoop_pairs choices rest (pairs0 ++ [(item, choice)])
            pairs acc acc' h
          rw [ih, invalidPairsOf]
          simp [invalidEntry, hsel, hfd, hasKey]
        | some v =>
          cases v with
          | str s =>
            simp only [hfd] at h
            exact Option.noConfusion h
          | tree frag =>
            simp only [hfd] at h
            have ih := collectLoop_pairs choices rest pairs0 pairs
              (mergeDicts acc frag) acc' h
            rw [ih, invalidPairsOf]
            simp [invalidEntry, hsel, hfd, hasKey]
      | none =>
        simp only [hsel] at h
        have htail : pairs = pairs0 ++ invalidPairsOf choices rest := by
          cases opts with
          | nil => exact collectLoop_pairs choices rest pairs0 pairs acc acc' h
          | cons k1 v1 o =>
            cases v1 with
            | str s => simp at h
            | tree frag =>
              exact collectLoop_pairs choices rest pairs0 pairs
                (mergeDicts acc frag) acc' h
        rw [htail, invalidPairsOf]
        simp [invalidEntry, hsel]

/--
Claim C4.  When the profile declares a menu and the selection contains
at least one invalid `(category, choice)` pair, `_parseMenu` checks all
declared categories before failing: the single raised failure carries
every invalid pair of the whole menu (errors are batched, not
fail-fast), and the board is returned unchanged — no overlay from any
category has been applied to it.
-/
theorem invalid_choices_batched_no_overlay
    (menuArg : String) (board menu acc : Dict)
    (pairs : List (String × String))
    (hmenu : dfind board "menu" = some (.tree menu))
    (hcollect : collectLoop (parseChoices menuArg) menu [] .nil = some (pairs, acc))
    (hne : pairs ≠ []) :
    parseMenu menuArg board = (some (.invalidChoices pairs), board) ∧
      pairs = invalidPairsOf (parseChoices menuArg) menu := by
  have hchar := collectLoop_pairs (parseChoices menuArg) menu [] pairs .nil acc
    hcollect
  have hlen : 0 < pairs.length := by
    cases pairs with
    | nil => exact absurd rfl hne
    | cons a l => simp
  constructor
  · simp [parseMenu, hmenu, hcollect, hlen]
  · simpa using hchar

/-- Witness for C4: one declared category, one invalid selection. -/
theorem invalid_choices_batched_no_overlay_witness :
    parseMenu "speed:slow"
        (.cons "menu" (.tree (.cons "speed"
          (.tree (.cons "fast" (.tree (.cons "name" (.str "Fast") .nil)) .nil))
          .nil)) .nil) =
      (some (.invalidChoices [("speed", "slow")]),
        .cons "menu" (.tree (.cons "speed"
          (.tree (.cons "fast" (.tree (.cons "name" (.str "Fast") .nil)) .nil))
          .nil)) .nil) ∧
      [("speed", "slow")] = invalidPairsOf (parseChoices "speed:slow")
        (.cons "speed"
          (.tree (.cons "fast" (.tree (.cons "name" (.str "Fast") .nil)) .nil))
          .nil) :=
  invalid_choices_batched_no_overlay "speed:slow" _ _ .nil [("speed", "slow")]
    rfl rfl (by simp)

/--
Counterexample to claim C5 as stated: a profile with a declared menu
and an entirely valid selection, where no merged fragment contains a
top-level name key.  The claim says the merge succeeds with no error;
the code instead raises a `KeyError`, because
`del selectedOptions["name"]` is unconditional.
-/
theorem valid_choices_no_name_key_raises :
    parseMenu "speed:fast"
        (.cons "menu" (.tree (.cons "speed"
          (.tree (.cons "fast" (.tree (.cons "opt" (.str "1") .nil)) .nil))
          .nil)) .nil) =
      (some .nameMissing,
        .cons "menu" (.tree (.cons "speed"
          (.tree (.cons "fast" (.tree (.cons "opt" (.str "1") .nil)) .nil))
          .nil)) .nil) := rfl

/--
Claim C5, amended.  For every profile declaring a menu and every
selection whose selected choices are all valid, provided the
accumulated overlay contains a top-level name key (which every fragment
of a real board menu supplies), the merge succeeds: the reserved name
key is stripped from the accumulator, the accumulator is deep-merged
into the profile, and the overridden profile is returned with no error.
(Without the name key the unconditional `del selectedOptions["name"]`
raises, so that case is excluded — see the counterexample.)
-/
theorem valid_choices_merge
    (menuArg : String) (board menu acc : Dict)
    (hmenu : dfind board "menu" = some (.tree menu))
    (hcollect : collectLoop (parseChoices menuArg) menu [] .nil = some ([], acc))
    (hname : hasKey acc "name" = true) :
    parseMenu menuArg board = (none, mergeDicts board (removeKey acc "name")) := by
  simp [parseMenu, hmenu, hcollect, hname]

/-- Witness for the amended C5: the fragment carries a name key. -/
theorem valid_choices_merge_witness :
    parseMenu "speed:fast"
        (.cons "menu" (.tree (.cons "speed"
          (.tree (.cons "fast"
            (.tree (.cons "name" (.str "Fast") (.cons "opt" (.str "1") .nil)))
            .nil)) .nil)) .nil) =
      (none,
        mergeDicts
          (.cons "menu" (.tree (.cons "speed"
            (.tree (.cons "fast"
              (.tree (.cons "name" (.str "Fast") (.cons "opt" (.str "1") .nil)))
              .nil)) .nil)) .nil)
          (removeKey
            (.cons "name" (.str "Fast") (.cons "opt" (.str "1") .nil))
            "name")) :=
  valid_choices_merge "speed:fast" _ _
    (.cons "name" (.str "Fast") (.cons "opt" (.str "1") .nil)) rfl rfl rfl

/-! ### Decimal key names

The numbered families use keys `prefix + str(i)`.  The loop in the
source terminates because these keys are pairwise distinct and the
table is finite; the lemmas here establish that, starting from the
injectivity of the decimal representation `Nat.repr`. -/

theorem toDigitsCore_small (f n : Nat) (ds : List Char) (h : n < 10) :
    Nat.toDigitsCore 10 (f + 1) n ds = Nat.digitChar (n % 10) :: ds := by
  simp only [Nat.toDigitsCore]
  rw [if_pos (Nat.div_eq_of_lt h)]

theorem toDigitsCore_eq_digits :
    ∀ (f n : Nat) (ds : List Char), n < 10 ^ (f + 1) →
      Nat.toDigitsCore 10 (f + 1) n ds =
        (if n = 0 then ['0']
         else ((Nat.digits 10 n).map Nat.digitChar).reverse) ++ ds
  | 0, n, ds, h => by
    rw [pow_one] at h
    rw [toDigitsCore_small 0 n ds h]
    by_cases hn : n = 0
    · subst hn
      rfl
    · rw [if_neg hn, Nat.digits_of_lt 10 n hn h, Nat.mod_eq_of_lt h]
      rfl
  | f + 1, n, ds, h => by
    by_cases h0 : n < 10
    · rw [toDigitsCore_small (f + 1) n ds h0]
      by_cases hn : n = 0
      · subst hn
        rfl
      · rw [if_neg hn, Nat.digits_of_lt 10 n hn h0, Nat.mod_eq_of_lt h0]
        rfl
    · have hn : n ≠ 0 := by omega
      have hdiv : n / 10 ≠ 0 := by
        intro hd
        exact h0 (by omega)
      have hstep : Nat.toDigitsCore 10 (f + 1 + 1) n ds =
          Nat.toDigitsCore 10 (f + 1) (n / 10)
            (Nat.digitChar (n % 10) :: ds) := by
        simp only [Nat.toDigitsCore]
        rw [if_neg hdiv]
      rw [hstep]
      have hlt : n / 10 < 10 ^ (f + 1) := by
        rw [Nat.div_lt_iff_lt_mul (by norm_num)]
        calc n < 10 ^ (f + 1 + 1) := h
          _ = 10 ^ (f + 1) * 10 := by ring
      rw [toDigitsCore_eq_digits f (n / 10) _ hlt]
      rw [if_neg hdiv, if_neg hn]
      rw [Nat.digits_def' (by norm_num : (1:ℕ) < 10) (Nat.pos_of_ne_zero hn)]
      simp [List.append_assoc]

theorem repr_eq_digits (n : Nat) :
    Nat.repr n =
      (if n = 0 then ['0']
       else ((Nat.digits 10 n).map Nat.digitChar).reverse).asString := by
  rw [Nat.repr, Nat.toDigits]
  rw [toDigitsCore_eq_digits n n [] (by
    calc n < 10 ^ n := Nat.lt_pow_self (by norm_num) n
      _ ≤ 10 ^ (n + 1) := Nat.pow_le_pow_right (by norm_num) (Nat.le_succ n))]
  rw [List.append_nil]

theorem digitChar_injOn :
    ∀ a < 10, ∀ b < 10, Nat.digitChar a = Nat.digitChar b → a = b := by
  decide

theorem map_digitChar_inj :
    ∀ (l1 l2 : List Nat), (∀ x ∈ l1, x < 10) → (∀ x ∈ l2, x < 10) →
      l1.map Nat.digitChar = l2.map Nat.digitChar → l1 = l2
  | [], [], _, _, _ => rfl
  | [], x :: l2, _, _, h => by simp at h
  | x :: l1, [], _, _, h => by simp at h
  | x :: l1, y :: l2, h1, h2, h => by
    simp only [List.map_cons, List.cons.injEq] at h
    rw [digitChar_injOn x (h1 x (by simp)) y (h2 y (by simp)) h.1,
      map_digitChar_inj l1 l2 (fun z hz => h1 z (by simp [hz]))
        (fun z hz => h2 z (by simp [hz])) h.2]

theorem repr_inj {m n : Nat} (h : Nat.repr m = Nat.repr n) : m = n := by
  rw [repr_eq_digits, repr_eq_digits, List.asString_inj] at h
  have hP : ∀ x : Nat,
      (if x = 0 then ['0'] else ((Nat.digits 10 x).map Nat.digitChar).reverse) =
        ((if x = 0 then [0] else Nat.digits 10 x).map Nat.digitChar).reverse := by
    intro x
    by_cases hx : x = 0
    · simp [hx, Nat.digitChar]
    · simp [hx]
  rw [hP, hP] at h
  have h2 := List.reverse_injective h
  have hbound : ∀ x : Nat, ∀ z ∈ (if x = 0 then [0] else Nat.digits 10 x), z < 10 := by
    intro x z hz
    by_cases hx : x = 0
    · rw [if_pos hx] at hz
      simp at hz
      omega
    · rw [if_neg hx] at hz
      exact Nat.digits_lt_base (by norm_num) hz
  have h3 := map_digitChar_inj _ _ (hbound m) (hbound n) h2
  have hval : ∀ x : Nat,
      Nat.ofDigits 10 (if x = 0 then [0] else Nat.digits 10 x) = x := by
    intro x
    by_cases hx : x = 0 <;>
      simp [hx, Nat.ofDigits_digits, Nat.ofDigits]
  rw [← hval m, ← hval n, h3]

theorem numKey_inj (pfx : String) {i j : Nat}
    (h : pfx ++ Nat.repr i = pfx ++ Nat.repr j) : i = j := by
  have hd := congrArg String.data h
  rw [String.data_append, String.data_append] at hd
  have hr : (Nat.repr i).data = (Nat.repr j).data := List.append_cancel_left hd
  have hrepr : Nat.repr i = Nat.repr j := by
    cases hi : Nat.repr i
    cases hj : Nat.repr j
    rw [hi, hj] at hr
    simp at hr
    rw [hr]
  exact repr_inj hrepr

theorem hasKey_mem_dkeys :
    ∀ (d : Dict) (k : String), hasKey d k = true → k ∈ dkeys d
  | .nil, k, h => by simp [hasKey, dfind] at h
  | .cons k' v d, k, h => by
    by_cases he : k' = k
    · rw [he]
      simp [dkeys]
    · rw [hasKey, dfind, if_neg he] at h
      exact List.mem_cons_of_mem k' (hasKey_mem_dkeys d k h)

theorem dkeys_length_eq : ∀ d : Dict, (dkeys d).length = dictLen d
  | .nil => rfl
  | .cons k v d => by rw [dkeys, dictLen, List.length_cons, dkeys_length_eq d]

/-- Pigeonhole: the table cannot contain `dictLen table + 1` distinct
numbered keys. -/
theorem numKeys_pigeonhole (table : Dict) (pfx : String) (i : Nat)
    (h : ∀ j, j ≤ dictLen table →
      hasKey table (pfx ++ Nat.repr (i + j)) = true) : False := by
  have hnd : ((List.range (dictLen table + 1)).map
      (fun j => pfx ++ Nat.repr (i + j))).Nodup := by
    refine List.Nodup.map ?_ (List.nodup_range _)
    intro a b hab
    have := numKey_inj pfx hab
    omega
  have hsub : ((List.range (dictLen table + 1)).map
      (fun j => pfx ++ Nat.repr (i + j))) ⊆ dkeys table := by
    intro x hx
    simp only [List.mem_map, List.mem_range] at hx
    obtain ⟨j, hj, rfl⟩ := hx
    exact hasKey_mem_dkeys table _ (h j (Nat.lt_succ_iff.mp hj))
  have hlen := (List.subperm_of_subset hnd hsub).length_le
  rw [dkeys_length_eq] at hlen
  simp only [List.length_map, List.length_range] at hlen
  omega

/-- Every numbered scan hits a first missing index within the size of
the table. -/
theorem exists_numbered_gap (table : Dict) (pfx : String) (i : Nat) :
    ∃ k, k ≤ dictLen table ∧
      hasKey table (pfx ++ Nat.repr (i + k)) = false ∧
      ∀ j, j < k → hasKey table (pfx ++ Nat.repr (i + j)) = true := by
  have hex : ∃ k, hasKey table (pfx ++ Nat.repr (i + k)) = false := by
    by_contra hc
    push_neg at hc
    refine numKeys_pigeonhole table pfx i (fun j _ => ?_)
    have h2 := hc j
    revert h2
    cases hasKey table (pfx ++ Nat.repr (i + j)) <;> simp
  refine ⟨Nat.find hex, ?_, Nat.find_spec hex, fun j hj => ?_⟩
  · by_contra hgt
    refine numKeys_pigeonhole table pfx i (fun j hj => ?_)
    have h2 := Nat.find_min hex (show j < Nat.find hex by omega)
    revert h2
    cases hasKey table (pfx ++ Nat.repr (i + j)) <;> simp
  · have h2 := Nat.find_min hex hj
    revert h2
    cases hasKey table (pfx ++ Nat.repr (i + j)) <;> simp

/-- With any two fuels above the distance to the first gap the loop
computes the same entries. -/
theorem appendNumberedGo_stable :
    ∀ (k : Nat) (table : Dict) (pfx : String) (i f1 f2 : Nat),
      k < f1 → k < f2 →
      hasKey table (pfx ++ Nat.repr (i + k)) = false →
      (∀ j, j < k → hasKey table (pfx ++ Nat.repr (i + j)) = true) →
      appendNumberedGo table pfx f1 i = appendNumberedGo table pfx f2 i
  | 0, table, pfx, i, f1, f2, h1, h2, hgap, _ => by
    cases f1 with
    | zero => omega
    | succ f1' =>
      cases f2 with
      | zero => omega
      | succ f2' =>
        rw [Nat.add_zero] at hgap
        have hnone : dfind table (pfx ++ Nat.repr i) = none := by
          cases ho : dfind table (pfx ++ Nat.repr i) with
          | none => rfl
          | some v =>
            rw [hasKey, ho] at hgap
            simp at hgap
        simp only [appendNumberedGo, hnone]
  | k + 1, table, pfx, i, f1, f2, h1, h2, hgap, hpres => by
    cases f1 with
    | zero => omega
    | succ f1' =>
      cases f2 with
      | zero => omega
      | succ f2' =>
        have hp0 := hpres 0 (Nat.succ_pos k)
        rw [Nat.add_zero, hasKey] at hp0
        obtain ⟨v, hv⟩ := Option.isSome_iff_exists.mp hp0
        simp only [appendNumberedGo, hv]
        congr 1
        refine appendNumberedGo_stable k table pfx (i + 1) f1' f2'
          (by omega) (by omega) ?_ ?_
        · rw [show i + 1 + k = i + (k + 1) from by omega]
          exact hgap
        · intro j hj
          have hp := hpres (j + 1) (by omega)
          rw [show i + (j + 1) = i + 1 + j from by omega] at hp
          exact hp

/-- The recurrence of the source loop, fuel-free: scan index `start`;
if the key is missing stop, otherwise collect the value and continue at
`start + 1`.  This is exactly the gap-terminated upward scan. -/
theorem appendNumberedEntries_unfold (table : Dict) (pfx : String) (start : Nat) :
    appendNumberedEntries table pfx start =
      match dfind table (pfx ++ Nat.repr start) with
      | none => []
      | some v => v :: appendNumberedEntries table pfx (start + 1) := by
  obtain ⟨k, hkle, hgap, hpres⟩ := exists_numbered_gap table pfx start
  cases hfd : dfind table (pfx ++ Nat.repr start) with
  | none =>
    show appendNumberedGo table pfx (dictLen table + 1) start = []
    simp only [appendNumberedGo, hfd]
  | some v =>
    show appendNumberedGo table pfx (dictLen table + 1) start =
      v :: appendNumberedGo table pfx (dictLen table + 1) (start + 1)
    simp only [appendNumberedGo, hfd]
    congr 1
    have hk0 : k ≠ 0 := by
      intro h0
      rw [h0, Nat.add_zero, hasKey, hfd] at hgap
      simp at hgap
    refine appendNumberedGo_stable (k - 1) table pfx (start + 1)
      (dictLen table) (dictLen table + 1) (by omega) (by omega) ?_ ?_
    · rw [show start + 1 + (k - 1) = start + k from by omega]
      exact hgap
    · intro j hj
      have hp := hpres (j + 1) (by omega)
      rw [show start + (j + 1) = start + 1 + j from by omega] at hp
      exact hp

/-- Witness for C1: a complete concrete run (initial scan, scan of Wire,
scan of SPI) reaching a final state. -/
theorem spi_after_wire_witness :
    (⟨["Wire", "SPI"], insert "SPI" (insert "Wire" ∅)⟩ : RState).used =
      ["Wire", "SPI"] :=
  spi_after_wire mWire ⟨["Wire", "SPI"], ∅⟩
    ⟨["Wire", "SPI"], insert "SPI" (insert "Wire" ∅)⟩
    rfl rfl rfl rfl (List.Perm.refl _) rfl
    (Relation.ReflTransGen.head
      (ScanStep.scan ⟨["Wire", "SPI"], ∅⟩ "Wire" ["SPI"] (by simp) (by simp)
        (List.Perm.refl _))
      (Relation.ReflTransGen.head
        (ScanStep.scan ⟨["Wire", "SPI"], insert "Wire" ∅⟩ "SPI" [] (by simp)
          (by decide) (List.Perm.refl _))
        Relation.ReflTransGen.refl))
    (show (["Wire", "SPI"] : List String).toFinset ⊆
        insert "SPI" (insert "Wire" ∅) by decide)

/-! ### Flag assembly theorems -/

section FlagTheorems

variable (verInt verMajor : Nat) (coreDir variantsDir : String)
  (findTool : String → String) (args : FlagArgs) (board build : Dict)
  (e : Env) (nm : String)

/-- On every non-spark profile that passes the `cpu`/`mcu` and `f_cpu`
stages, the stored `cppflags` sequence has the source shape: the two
architecture slots, the `F_CPU` define, the `ARDUINO` version define,
the core include path, the user flags, the `option` family from 1, the
`define` family from 0, the vid/pid defines and the variant include —
whether or not the variant lookup later fails. -/
theorem setup_flags_cppflags_eq
    (hbuild : dfind board "build" = some (.tree build))
    (hname : dfind board "name" = some (.str nm))
    (hspark : startsWithStr (pyLower nm) "spark" = false)
    {cpu mcu : String} (harch : archFlags build = some (cpu, mcu))
    {f : String} (hf : dfind build "f_cpu" = some (.str f))
    {incf : String} (hinc : incflagVal build = .str incf) :
    (setup_flags verInt verMajor coreDir variantsDir findTool args board e).2.cppflags =
      some ([.str cpu, .str mcu, .str ("-DF_CPU=" ++ f),
             .str ("-DARDUINO=" ++ Nat.repr verInt),
             .str (incf ++ coreDir)] ++
            args.cppflags.map Value.str ++
            appendNumberedEntries build "option" 1 ++
            appendNumberedEntries build "define" 0 ++
            vidPidSuffix build ++
            (variantSuffix nm verMajor incf variantsDir build).2) := by
  cases hv : (variantSuffix nm verMajor incf variantsDir build).1 with
  | some err =>
    simp [setup_flags, hbuild, hname, hspark, harch, hf, hinc, hv]
  | none =>
    cases hls : dfind build "linkscript" with
    | none => simp [setup_flags, hbuild, hname, hspark, harch, hf, hinc, hv, hls]
    | some v =>
      cases v <;>
        simp [setup_flags, hbuild, hname, hspark, harch, hf, hinc, hv, hls]

/--
Claim C7.  On every profile whose name does not start with the
cloud-platform marker `spark` and whose build section lacks `f_cpu`
(and is otherwise well-shaped up to that check), `setup_flags` raises
the `KeyError` before any of the four flag sequences is produced or
stored: the four sequences are exactly as they were before the call.
-/
theorem missing_f_cpu_no_flags
    (hbuild : dfind board "build" = some (.tree build))
    (hname : dfind board "name" = some (.str nm))
    (hspark : startsWithStr (pyLower nm) "spark" = false)
    {cpu mcu : String} (harch : archFlags build = some (cpu, mcu))
    (hf : dfind build "f_cpu" = none) :
    (setup_flags verInt verMajor coreDir variantsDir findTool args board e).1 =
        some (.keyErr "f_cpu") ∧
      (setup_flags verInt verMajor coreDir variantsDir findTool args board e).2.cppflags =
        e.cppflags ∧
      (setup_flags verInt verMajor coreDir variantsDir findTool args board e).2.cflags =
        e.cflags ∧
      (setup_flags verInt verMajor coreDir variantsDir findTool args board e).2.cxxflags =
        e.cxxflags ∧
      (setup_flags verInt verMajor coreDir variantsDir findTool args board e).2.ldflags =
        e.ldflags := by
  simp [setup_flags, hbuild, hname, hspark, harch, hf]

/-- Witness for C7: a board without `f_cpu`. -/
theorem missing_f_cpu_no_flags_witness :
    (setup_flags 100 1 "core" "variants" (fun _ => "") ⟨[], [], [], []⟩
        (.cons "name" (.str "Uno") (.cons "build" (.tree .nil) .nil))
        ⟨none, none, none, none, none, false⟩).1 = some (.keyErr "f_cpu") ∧
      (setup_flags 100 1 "core" "variants" (fun _ => "") ⟨[], [], [], []⟩
        (.cons "name" (.str "Uno") (.cons "build" (.tree .nil) .nil))
        ⟨none, none, none, none, none, false⟩).2.cppflags = none ∧
      (setup_flags 100 1 "core" "variants" (fun _ => "") ⟨[], [], [], []⟩
        (.cons "name" (.str "Uno") (.cons "build" (.tree .nil) .nil))
        ⟨none, none, none, none, none, false⟩).2.cflags = none ∧
      (setup_flags 100 1 "core" "variants" (fun _ => "") ⟨[], [], [], []⟩
        (.cons "name" (.str "Uno") (.cons "build" (.tree .nil) .nil))
        ⟨none, none, none, none, none, false⟩).2.cxxflags = none ∧
      (setup_flags 100 1 "core" "variants" (fun _ => "") ⟨[], [], [], []⟩
        (.cons "name" (.str "Uno") (.cons "build" (.tree .nil) .nil))
        ⟨none, none, none, none, none, false⟩).2.ldflags = none :=
  missing_f_cpu_no_flags 100 1 "core" "variants" (fun _ => "") ⟨[], [], [], []⟩
    (.cons "name" (.str "Uno") (.cons "build" (.tree .nil) .nil)) .nil
    ⟨none, none, none, none, none, false⟩ "Uno" rfl rfl rfl
    rfl rfl

/--
Claim C8.  On every non-spark profile with `f_cpu` (and string-valued
`cpu`/`mcu`/`incflag` fields where present), the assembled preprocessor
sequence starts with the architecture pair — a `-mcpu=` flag when `cpu`
is configured, otherwise a `-mmcu=` flag when `mcu` is, never both
non-empty — then the `F_CPU` define, the platform-version define and
the core include flag, in exactly that order, followed by the
user-supplied preprocessor flags (and then the remaining overrides).
-/
theorem cppflags_order
    (hbuild : dfind board "build" = some (.tree build))
    (hname : dfind board "name" = some (.str nm))
    (hspark : startsWithStr (pyLower nm) "spark" = false)
    (hcpu : dfind build "cpu" = none ∨ ∃ c, dfind build "cpu" = some (.str c))
    (hmcu : dfind build "mcu" = none ∨ ∃ c, dfind build "mcu" = some (.str c))
    {f : String} (hf : dfind build "f_cpu" = some (.str f))
    {incf : String} (hinc : incflagVal build = .str incf) :
    ∃ (cpu mcu : String) (tail : SpaceList),
      (setup_flags verInt verMajor coreDir variantsDir findTool args
          board e).2.cppflags =
        some ([.str cpu, .str mcu, .str ("-DF_CPU=" ++ f),
               .str ("-DARDUINO=" ++ Nat.repr verInt),
               .str (incf ++ coreDir)] ++
              args.cppflags.map Value.str ++ tail) ∧
      (∀ c, dfind build "cpu" = some (.str c) →
        cpu = "-mcpu=" ++ c ∧ mcu = "") ∧
      (∀ c, dfind build "cpu" = none → dfind build "mcu" = some (.str c) →
        cpu = "" ∧ mcu = "-mmcu=" ++ c) ∧
      ¬(cpu ≠ "" ∧ mcu ≠ "") := by
  have harch : ∃ cpu mcu, archFlags build = some (cpu, mcu) ∧
      (∀ c, dfind build "cpu" = some (.str c) →
        cpu = "-mcpu=" ++ c ∧ mcu = "") ∧
      (∀ c, dfind build "cpu" = none → dfind build "mcu" = some (.str c) →
        cpu = "" ∧ mcu = "-mmcu=" ++ c) ∧
      ¬(cpu ≠ "" ∧ mcu ≠ "") := by
    rcases hcpu with hc | ⟨c, hc⟩
    · rcases hmcu with hm | ⟨mc, hm⟩
      · exact ⟨"", "", by simp [archFlags, hc, hm], by simp [hc],
          fun c _ hm2 => by rw [hm] at hm2; exact Option.noConfusion hm2,
          by simp⟩
      · exact ⟨"", "-mmcu=" ++ mc, by simp [archFlags, hc, hm],
          fun c hc2 => by rw [hc] at hc2; exact Option.noConfusion hc2,
          fun c _ hm2 => by
            rw [hm] at hm2
            have := Option.some_inj.mp hm2
            have := Value.str.inj this
            exact ⟨rfl, by rw [this]⟩,
          by simp⟩
    · exact ⟨"-mcpu=" ++ c, "", by simp [archFlags, hc],
        fun c2 hc2 => by
          rw [hc] at hc2
          have := Value.str.inj (Option.some_inj.mp hc2)
          exact ⟨by rw [this], rfl⟩,
        fun c2 hc2 _ => by rw [hc] at hc2; exact Option.noConfusion hc2,
        by simp⟩
  obtain ⟨cpu, mcu, ha, p1, p2, p3⟩ := harch
  refine ⟨cpu, mcu,
    appendNumberedEntries build "option" 1 ++
      appendNumberedEntries build "define" 0 ++
      vidPidSuffix build ++
      (variantSuffix nm verMajor incf variantsDir build).2, ?_, p1, p2, p3⟩
  rw [setup_flags_cppflags_eq verInt verMajor coreDir variantsDir findTool
    args board build e nm hbuild hname hspark ha hf hinc]
  simp [List.append_assoc]

/-- Witness for C8: a cpu-configured board. -/
theorem cppflags_order_witness :
    ∃ (cpu mcu : String) (tail : SpaceList),
      (setup_flags 100 0 "core" "variants" (fun _ => "") ⟨["-g"], [], [], []⟩
          (.cons "name" (.str "Due")
            (.cons "build" (.tree (.cons "cpu" (.str "cortex-m3")
              (.cons "f_cpu" (.str "84000000L") .nil))) .nil))
          ⟨none, none, none, none, none, false⟩).2.cppflags =
        some ([.str cpu, .str mcu, .str ("-DF_CPU=" ++ "84000000L"),
               .str ("-DARDUINO=" ++ Nat.repr 100),
               .str ("-I" ++ "core")] ++
              [("-g" : String)].map Value.str ++ tail) ∧
      (∀ c, dfind (.cons "cpu" (.str "cortex-m3")
          (.cons "f_cpu" (.str "84000000L") .nil)) "cpu" = some (.str c) →
        cpu = "-mcpu=" ++ c ∧ mcu = "") ∧
      (∀ c, dfind (.cons "cpu" (.str "cortex-m3")
          (.cons "f_cpu" (.str "84000000L") .nil)) "cpu" = none →
        dfind (.cons "cpu" (.str "cortex-m3")
          (.cons "f_cpu" (.str "84000000L") .nil)) "mcu" = some (.str c) →
        cpu = "" ∧ mcu = "-mmcu=" ++ c) ∧
      ¬(cpu ≠ "" ∧ mcu ≠ "") :=
  cppflags_order 100 0 "core" "variants" (fun _ => "") ⟨["-g"], [], [], []⟩
    (.cons "name" (.str "Due")
      (.cons "build" (.tree (.cons "cpu" (.str "cortex-m3")
        (.cons "f_cpu" (.str "84000000L") .nil))) .nil))
    (.cons "cpu" (.str "cortex-m3") (.cons "f_cpu" (.str "84000000L") .nil))
    ⟨none, none, none, none, none, false⟩ "Due" rfl rfl rfl
    (Or.inr ⟨"cortex-m3", rfl⟩) (Or.inl rfl) rfl rfl

/--
Counterexample to claim C6 as stated: the claim says both the
`optionN` and `defineN` families are enumerated from index 1 upward,
but `setup_flags` scans the define family with the default `start=0`
(`self._appendNumberedEntries(..., 'define')`).  On a build table with
a `define0` key and no `define1`, a scan from 1 would append nothing,
yet the assembled `cppflags` contains the `define0` value.
-/
theorem define_family_starts_at_zero_cex :
    (setup_flags 100 0 "core" "variants" (fun _ => "") ⟨[], [], [], []⟩
        (.cons "name" (.str "Uno")
          (.cons "build" (.tree (.cons "f_cpu" (.str "16000000L")
            (.cons "define0" (.str "-DCUSTOM") .nil))) .nil))
        ⟨none, none, none, none, none, false⟩).2.cppflags =
      some [.str "", .str "", .str "-DF_CPU=16000000L", .str "-DARDUINO=100",
            .str "-Icore", .str "-DCUSTOM"] := rfl

/--
Claim C6, amended.  Both numbered key families are gap-terminated
upward scans, stopping at the first missing index (first conjunct: the
fuel-free recurrence of the scan loop); the `optionN` family is
enumerated from index 1, but the `defineN` family from index 0 — the
`setup_flags` call site omits `start=1` for it (third conjunct); and
for the table `{cpu1:1, cpu2:1, cpu3:2, cpu4:3, cpu5:5}` a scan of the
family `cpu` starting at index 1 appends exactly `[1,1,2,3,5]` (second
conjunct).
-/
theorem numbered_families_scan
    (hbuild : dfind board "build" = some (.tree build))
    (hname : dfind board "name" = some (.str nm))
    (hspark : startsWithStr (pyLower nm) "spark" = false)
    {cpu mcu : String} (harch : archFlags build = some (cpu, mcu))
    {f : String} (hf : dfind build "f_cpu" = some (.str f))
    {incf : String} (hinc : incflagVal build = .str incf) :
    (∀ (table : Dict) (pfx : String) (start : Nat),
        appendNumberedEntries table pfx start =
          match dfind table (pfx ++ Nat.repr start) with
          | none => []
          | some v => v :: appendNumberedEntries table pfx (start + 1)) ∧
      appendNumberedEntries
          (.cons "cpu1" (.str "1") (.cons "cpu2" (.str "1")
            (.cons "cpu3" (.str "2") (.cons "cpu4" (.str "3")
              (.cons "cpu5" (.str "5") .nil))))) "cpu" 1 =
        [.str "1", .str "1", .str "2", .str "3", .str "5"] ∧
      ∃ (pre suf : SpaceList),
        (setup_flags verInt verMajor coreDir variantsDir findTool args
            board e).2.cppflags =
          some (pre ++ appendNumberedEntries build "option" 1 ++
                appendNumberedEntries build "define" 0 ++ suf) := by
  refine ⟨appendNumberedEntries_unfold, rfl,
    [.str cpu, .str mcu, .str ("-DF_CPU=" ++ f),
     .str ("-DARDUINO=" ++ Nat.repr verInt),
     .str (incf ++ coreDir)] ++ args.cppflags.map Value.str,
    vidPidSuffix build ++ (variantSuffix nm verMajor incf variantsDir build).2,
    ?_⟩
  rw [setup_flags_cppflags_eq verInt verMajor coreDir variantsDir findTool
    args board build e nm hbuild hname hspark harch hf hinc]
  simp [List.append_assoc]

/-- Witness for the amended C6 at a concrete board. -/
theorem numbered_families_scan_witness :
    (∀ (table : Dict) (pfx : String) (start : Nat),
        appendNumberedEntries table pfx start =
          match dfind table (pfx ++ Nat.repr start) with
          | none => []
          | some v => v :: appendNumberedEntries table pfx (start + 1)) ∧
      appendNumberedEntries
          (.cons "cpu1" (.str "1") (.cons "cpu2" (.str "1")
            (.cons "cpu3" (.str "2") (.cons "cpu4" (.str "3")
              (.cons "cpu5" (.str "5") .nil))))) "cpu" 1 =
        [.str "1", .str "1", .str "2", .str "3", .str "5"] ∧
      ∃ (pre suf : SpaceList),
        (setup_flags 100 0 "core" "variants" (fun _ => "") ⟨[], [], [], []⟩
            (.cons "name" (.str "Uno")
              (.cons "build" (.tree (.cons "f_cpu" (.str "16000000L")
                (.cons "option1" (.str "-O1") .nil))) .nil))
            ⟨none, none, none, none, none, false⟩).2.cppflags =
          some (pre ++
            appendNumberedEntries (.cons "f_cpu" (.str "16000000L")
              (.cons "option1" (.str "-O1") .nil)) "option" 1 ++
            appendNumberedEntries (.cons "f_cpu" (.str "16000000L")
              (.cons "option1" (.str "-O1") .nil)) "define" 0 ++ suf) :=
  numbered_families_scan 100 0 "core" "variants" (fun _ => "") ⟨[], [], [], []⟩
    (.cons "name" (.str "Uno")
      (.cons "build" (.tree (.cons "f_cpu" (.str "16000000L")
        (.cons "option1" (.str "-O1") .nil))) .nil))
    (.cons "f_cpu" (.str "16000000L") (.cons "option1" (.str "-O1") .nil))
    ⟨none, none, none, none, none, false⟩ "Uno" rfl rfl rfl
    rfl rfl rfl

/--
Counterexample to claim C10 as stated: a profile named `arduino...`
with `f_cpu` but neither `cpu` nor `mcu`, under a platform with
non-zero major version and no `variant` key, makes flag assembly fail
(the variant lookup raises a `KeyError`) — the claim asserted assembly
never fails for such profiles.
-/
theorem missing_variant_fails_cex :
    (setup_flags 100 1 "core" "variants" (fun _ => "") ⟨[], [], [], []⟩
        (.cons "name" (.str "Arduino Uno")
          (.cons "build" (.tree (.cons "f_cpu" (.str "16000000L") .nil)) .nil))
        ⟨none, none, none, none, none, false⟩).1 =
      some (.keyErr "variant") := rfl

/--
Claim C10, amended.  For every non-spark profile whose build section
contains `f_cpu` but neither `cpu` nor `mcu` (fields string-valued
where present), provided the variant step succeeds (automatic unless
the name begins with `arduino` under a non-zero major version and
`variant` is missing or malformed) and any configured link script is a
string, flag assembly succeeds and produces all four flag sequences;
the two architecture slots at the head of the preprocessor sequence
hold empty-string tokens, and so do those of the linker sequence —
immediately at its head when no link script is configured, after the
prepended `-T` token otherwise.
-/
theorem no_arch_keys_flag_assembly
    (hbuild : dfind board "build" = some (.tree build))
    (hname : dfind board "name" = some (.str nm))
    (hspark : startsWithStr (pyLower nm) "spark" = false)
    (hcpu : dfind build "cpu" = none) (hmcu : dfind build "mcu" = none)
    {f : String} (hf : dfind build "f_cpu" = some (.str f))
    {incf : String} (hinc : incflagVal build = .str incf)
    (hvar : (variantSuffix nm verMajor incf variantsDir build).1 = none)
    (hls : dfind build "linkscript" = none ∨
      ∃ ls, dfind build "linkscript" = some (.str ls)) :
    (setup_flags verInt verMajor coreDir variantsDir findTool args board e).1 =
        none ∧
      (∃ rest, (setup_flags verInt verMajor coreDir variantsDir findTool args
          board e).2.cppflags = some (.str "" :: .str "" :: rest)) ∧
      (setup_flags verInt verMajor coreDir variantsDir findTool args
          board e).2.cflags = some (args.cflags.map Value.str) ∧
      (setup_flags verInt verMajor coreDir variantsDir findTool args
          board e).2.cxxflags = some (args.cxxflags.map Value.str ++
            appendNumberedEntries build "cppoption" 1) ∧
      (dfind build "linkscript" = none →
        (setup_flags verInt verMajor coreDir variantsDir findTool args
            board e).2.ldflags = some ([.str "", .str ""] ++
          args.ldflags.map (fun fl => Value.str ("-Wl," ++ fl)) ++
          appendNumberedEntries build "linkoption" 1 ++
          appendNumberedEntries build "additionalobject" 1)) ∧
      (∀ ls, dfind build "linkscript" = some (.str ls) →
        (setup_flags verInt verMajor coreDir variantsDir findTool args
            board e).2.ldflags = some (.str ("-T" ++ findTool ls) ::
          ([.str "", .str ""] ++
            args.ldflags.map (fun fl => Value.str ("-Wl," ++ fl)) ++
            appendNumberedEntries build "linkoption" 1 ++
            appendNumberedEntries build "additionalobject" 1))) := by
  have harch : archFlags build = some ("", "") := by
    simp [archFlags, hcpu, hmcu]
  have hcpp : ∃ rest, (setup_flags verInt verMajor coreDir variantsDir findTool
      args board e).2.cppflags = some (.str "" :: .str "" :: rest) := by
    refine ⟨[Value.str ("-DF_CPU=" ++ f),
      Value.str ("-DARDUINO=" ++ Nat.repr verInt),
      Value.str (incf ++ coreDir)] ++ args.cppflags.map Value.str ++
      appendNumberedEntries build "option" 1 ++
      appendNumberedEntries build "define" 0 ++ vidPidSuffix build ++
      (variantSuffix nm verMajor incf variantsDir build).2, ?_⟩
    rw [setup_flags_cppflags_eq verInt verMajor coreDir variantsDir findTool
      args board build e nm hbuild hname hspark harch hf hinc]
    simp [List.append_assoc]
  rcases hls with hls | ⟨ls, hls⟩
  · refine ⟨?_, hcpp, ?_, ?_, fun _ => ?_, fun ls2 hls2 => ?_⟩
    · simp [setup_flags, hbuild, hname, hspark, harch, hf, hinc, hvar, hls]
    · simp [setup_flags, hbuild, hname, hspark, harch, hf, hinc, hvar, hls]
    · simp [setup_flags, hbuild, hname, hspark, harch, hf, hinc, hvar, hls]
    · simp [setup_flags, hbuild, hname, hspark, harch, hf, hinc, hvar, hls,
        List.append_assoc]
    · rw [hls] at hls2
      exact Option.noConfusion hls2
  · refine ⟨?_, hcpp, ?_, ?_, fun hn => ?_, fun ls2 hls2 => ?_⟩
    · simp [setup_flags, hbuild, hname, hspark, harch, hf, hinc, hvar, hls]
    · simp [setup_flags, hbuild, hname, hspark, harch, hf, hinc, hvar, hls]
    · simp [setup_flags, hbuild, hname, hspark, harch, hf, hinc, hvar, hls]
    · rw [hls] at hn
      exact Option.noConfusion hn
    · rw [hls] at hls2
      have heq : ls = ls2 := Value.str.inj (Option.some_inj.mp hls2)
      subst heq
      simp [setup_flags, hbuild, hname, hspark, harch, hf, hinc, hvar, hls,
        List.append_assoc]

/-- Witness for the amended C10 at a concrete board (no link script). -/
theorem no_arch_keys_flag_assembly_witness :
    (setup_flags 100 0 "core" "variants" (fun _ => "") ⟨[], ["-g"], [], ["-Os"]⟩
        (.cons "name" (.str "Uno")
          (.cons "build" (.tree (.cons "f_cpu" (.str "16000000L") .nil)) .nil))
        ⟨none, none, none, none, none, false⟩).1 = none ∧
      (∃ rest, (setup_flags 100 0 "core" "variants" (fun _ => "")
          ⟨[], ["-g"], [], ["-Os"]⟩
          (.cons "name" (.str "Uno")
            (.cons "build" (.tree (.cons "f_cpu" (.str "16000000L") .nil)) .nil))
          ⟨none, none, none, none, none, false⟩).2.cppflags =
        some (.str "" :: .str "" :: rest)) ∧
      (setup_flags 100 0 "core" "variants" (fun _ => "")
          ⟨[], ["-g"], [], ["-Os"]⟩
          (.cons "name" (.str "Uno")
            (.cons "build" (.tree (.cons "f_cpu" (.str "16000000L") .nil)) .nil))
          ⟨none, none, none, none, none, false⟩).2.cflags =
        some (["-g"].map Value.str) ∧
      (setup_flags 100 0 "core" "variants" (fun _ => "")
          ⟨[], ["-g"], [], ["-Os"]⟩
          (.cons "name" (.str "Uno")
            (.cons "build" (.tree (.cons "f_cpu" (.str "16000000L") .nil)) .nil))
          ⟨none, none, none, none, none, false⟩).2.cxxflags =
        some (([] : List String).map Value.str ++
          appendNumberedEntries (.cons "f_cpu" (.str "16000000L") .nil)
            "cppoption" 1) ∧
      (dfind (.cons "f_cpu" (.str "16000000L") .nil) "linkscript" = none →
        (setup_flags 100 0 "core" "variants" (fun _ => "")
            ⟨[], ["-g"], [], ["-Os"]⟩
            (.cons "name" (.str "Uno")
              (.cons "build" (.tree (.cons "f_cpu" (.str "16000000L") .nil)) .nil))
            ⟨none, none, none, none, none, false⟩).2.ldflags =
          some ([.str "", .str ""] ++
            ["-Os"].map (fun fl => Value.str ("-Wl," ++ fl)) ++
            appendNumberedEntries (.cons "f_cpu" (.str "16000000L") .nil)
              "linkoption" 1 ++
            appendNumberedEntries (.cons "f_cpu" (.str "16000000L") .nil)
              "additionalobject" 1)) ∧
      (∀ ls, dfind (.cons "f_cpu" (.str "16000000L") .nil) "linkscript" =
          some (.str ls) →
        (setup_flags 100 0 "core" "variants" (fun _ => "")
            ⟨[], ["-g"], [], ["-Os"]⟩
            (.cons "name" (.str "Uno")
              (.cons "build" (.tree (.cons "f_cpu" (.str "16000000L") .nil)) .nil))
            ⟨none, none, none, none, none, false⟩).2.ldflags =
          some (.str ("-T" ++ (fun _ => "") ls) :: ([.str "", .str ""] ++
            ["-Os"].map (fun fl => Value.str ("-Wl," ++ fl)) ++
            appendNumberedEntries (.cons "f_cpu" (.str "16000000L") .nil)
              "linkoption" 1 ++
            appendNumberedEntries (.cons "f_cpu" (.str "16000000L") .nil)
              "additionalobject" 1))) :=
  no_arch_keys_flag_assembly 100 0 "core" "variants" (fun _ => "")
    ⟨[], ["-g"], [], ["-Os"]⟩
    (.cons "name" (.str "Uno")
      (.cons "build" (.tree (.cons "f_cpu" (.str "16000000L") .nil)) .nil))
    (.cons "f_cpu" (.str "16000000L") .nil)
    ⟨none, none, none, none, none, false⟩ "Uno" rfl rfl rfl rfl rfl rfl rfl rfl
    (Or.inl rfl)

end FlagTheorems

end Ino
